import Mathlib

/-
Verification of the PingPilot change-detection pipeline.

This file gives a shallow embedding of the core of `src/app`:
`extractor.py` (content blocks, block diffing, relevance filtering),
`diffing.py` (text normalization, hashing, robots gate results),
`monitor_core.py` (perceptual hash, Hamming distance, the deterministic
materiality classifier), and `main.py` (`run_check`, the per-target check
orchestration), together with proofs about the embedded definitions.

Modelling conventions, used consistently below:
* Python `str` is Lean `String`; `len` is `String.length` (both count
  unicode code points for the ASCII inputs considered here).
* SHA-256 hexdigests are modelled as an injective, always-nonempty digest
  function (the code only ever observes digests through equality tests and
  comparison with the empty-string column default, and under collision
  resistance digest equality coincides with input equality).
* Image decoding and resampling (PIL) are external: a screenshot is
  represented by its decoded grayscale downsampled pixel buffer.
* Network, browser rendering, the LLM chain, SMTP and the database session
  are external collaborators: the environment record supplies their
  outcomes, and `run_check` is a pure function of that environment.
-/

namespace PingPilot

/-! ### Generic helpers -/

/-- Fueled binary popcount; `popCountAux n n` counts the ones of `n`.
Structural recursion on the fuel keeps it kernel-reducible. -/
def popCountAux : Nat → Nat → Nat
  | 0, _ => 0
  | _ + 1, 0 => 0
  | fuel + 1, n + 1 => (n + 1) % 2 + popCountAux fuel ((n + 1) / 2)

/-- Population count of a natural number, as Python `int.bit_count`. -/
def popCount (n : Nat) : Nat := popCountAux n n

/-! ### Content blocks (src/app/extractor.py)

`block(text, type_, path, weight)` builds a dict with keys `type`, `text`,
`path`, `weight` and `hash` (the SHA-256 of the text).  The diff and filter
functions only read those keys, so a block is modelled as a structure. -/

structure Block where
  type : String
  text : String
  path : String
  weight : Int
  hash : String
deriving DecidableEq, Repr

/-- Result shape of `diff_blocks`: the dict with keys added/removed/modified. -/
structure DiffResult where
  added : List Block
  removed : List Block
  modified : List Block
deriving DecidableEq, Repr

/-- One step of `index_blocks`: `idx.setdefault(b["path"], []).append(b)` on an
insertion-ordered dict, modelled as an association list. -/
def addToIndex : List (String × List Block) → Block → List (String × List Block)
  | [], b => [(b.path, [b])]
  | e :: rest, b =>
    if e.1 = b.path then (e.1, e.2 ++ [b]) :: rest else e :: addToIndex rest b

/-- `index_blocks(blocks)`: group blocks by structural path, preserving both
the first-seen order of paths and the order of blocks within a path. -/
def index_blocks (blocks : List Block) : List (String × List Block) :=
  blocks.foldl addToIndex []

/-- Lookup in the path index (Python dict `.get`). -/
def lookupIdx : List (String × List Block) → String → Option (List Block)
  | [], _ => none
  | e :: rest, p => if e.1 = p then some e.2 else lookupIdx rest p

/-- The added/modified accumulation step of the first loop of `diff_blocks`.
`pv = prev_idx.get(path)`; `if not pv` (None or empty) the whole current
group is added, otherwise each current block whose hash is not among the
previous hashes at that path is modified. -/
def amStep (prev_idx : List (String × List Block))
    (am : List Block × List Block) (pc : String × List Block) :
    List Block × List Block :=
  match lookupIdx prev_idx pc.1 with
  | none => (am.1 ++ pc.2, am.2)
  | some pv =>
    if pv.isEmpty then (am.1 ++ pc.2, am.2)
    else (am.1, am.2 ++ pc.2.filter (fun cb => !(pv.any (fun pb => pb.hash == cb.hash))))

/-- `diff_blocks(prev, curr)` from src/app/extractor.py lines 126-144. -/
def diff_blocks (prev curr : List Block) : DiffResult :=
  let prev_idx := index_blocks prev
  let curr_idx := index_blocks curr
  let am := curr_idx.foldl (amStep prev_idx) ([], [])
  let removed := prev_idx.foldl
    (fun acc pc => if lookupIdx curr_idx pc.1 = none then acc ++ pc.2 else acc) []
  ⟨am.1, removed, am.2⟩

/-- Relevance score of `filter_relevant`: base weight, plus 5 for price,
3 for headline, 2 for list_item, minus 2 when the text is shorter than 12
characters.  (`b.get("weight", 1)`: the weight key is always present on
blocks produced by `block(...)`, modelled as the `weight` field.) -/
def score (b : Block) : Int :=
  let base := b.weight
  let base := if b.type = "price" then base + 5 else base
  let base := if b.type = "headline" then base + 3 else base
  let base := if b.type = "list_item" then base + 2 else base
  if b.text.length < 12 then base - 2 else base

/-- Stable descending insertion by `score`: an element is placed after every
earlier element of strictly greater score and before the rest, which is
exactly the order produced by Python `sorted(key=score, reverse=True)`
(Timsort is stable and `reverse=True` keeps equal keys in input order). -/
def insertDesc (b : Block) : List Block → List Block
  | [] => [b]
  | x :: xs => if score b < score x then x :: insertDesc b xs else b :: x :: xs

/-- Stable descending sort by `score`, modelling `sorted(items, key=score, reverse=True)`. -/
def sortDesc (l : List Block) : List Block := l.foldr insertDesc []

/-- `filter_relevant(changes, keep_max=60)` from src/app/extractor.py lines
146-159: sort each of added/removed/modified descending by score (stable)
and truncate to `keep_max` (the Python default is 60; `run_check` uses it). -/
def filter_relevant (changes : DiffResult) (keep_max : Nat) : DiffResult :=
  ⟨(sortDesc changes.added).take keep_max,
   (sortDesc changes.removed).take keep_max,
   (sortDesc changes.modified).take keep_max⟩

/-! ### Text utilities (src/app/diffing.py) -/

/-- Python `\s` on the ASCII range (plus the unicode spaces are irrelevant to
the inputs considered here). -/
def pyIsSpace (c : Char) : Bool :=
  c = ' ' || c = '\t' || c = '\n' || c = '\x0d' || c = '\x0b' || c = '\x0c'

/-- Split a character list on runs of whitespace, dropping empty words:
the word list of `re.sub(r"\s+", " ", s).strip()`. -/
def splitWsAux : List Char → List Char → List (List Char)
  | acc, [] => if acc.isEmpty then [] else [acc.reverse]
  | acc, c :: rest =>
    if pyIsSpace c then
      (if acc.isEmpty then splitWsAux [] rest else acc.reverse :: splitWsAux [] rest)
    else splitWsAux (c :: acc) rest

/-- `normalize_text_block(s)`: collapse all whitespace runs to single spaces
and trim the ends (`re.sub(r"\s+", " ", s or "").strip()`). -/
def normalize_text_block (s : String) : String :=
  ⟨List.intercalate [' '] (splitWsAux [] s.data)⟩

/-- `text_hash(text)`: SHA-256 hexdigest of the UTF-8 bytes.  Modelled as an
injective digest that is never the empty string (a real hexdigest has 64
characters); only digest (in)equality is observed by the program. -/
def text_hash (text : String) : String := "sha256:" ++ text

/-- `image_hash(png_bytes)`: grayscale, resize to the fixed 64x64 grid, then
SHA-256 the raw pixel buffer.  The PIL decoding/resampling is external, so
the input is the downsampled grayscale buffer; the digest is modelled as an
injective fingerprint of that buffer (never empty). -/
def image_hash (pixels : List Nat) : String := "sha256:" ++ toString pixels

/-- `make_diff_preview(old, new)`: the first 80 lines of a unified diff of
the two texts, empty when there is no difference.  The rendering itself is
presentation-only and observed by no claim; it is modelled by a placeholder
that is empty exactly when the inputs are equal (normalized texts are
single-line, so `unified_diff` is empty exactly on equal inputs). -/
def make_diff_preview (old new : String) : String :=
  if old = new then "" else "@@ " ++ old ++ " -> " ++ new

/-! ### difflib.SequenceMatcher (used by `run_check` for `change_ratio`)

`SequenceMatcher.ratio()` is `2*M/T` where `M` is the total size of the
matching blocks found by repeatedly taking the longest matching block
(earliest in `a`, then earliest in `b`, on ties) and recursing on both
sides, and `T` is the sum of the lengths.  `autojunk` only affects
sequences of length >= 200 and is irrelevant to the inputs used here. -/

/-- Length of the common prefix run of two character lists. -/
def runLen : List Char → List Char → Nat
  | x :: xs, y :: ys => if x = y then runLen xs ys + 1 else 0
  | _, _ => 0

/-- `find_longest_match` over full ranges: the longest common run, choosing
on ties the smallest start in `a`, then the smallest start in `b` (the
first maximum found scanning `i` then `j` ascending, as difflib does). -/
def findLM (a b : List Char) : Nat × Nat × Nat :=
  (List.range a.length).foldl (fun best i =>
    (List.range b.length).foldl (fun best j =>
      let k := runLen (a.drop i) (b.drop j)
      if best.2.2 < k then (i, j, k) else best) best) (0, 0, 0)

/-- Total matched size of `get_matching_blocks`, fueled for kernel
reducibility; each recursive call strictly shrinks the combined length, so
the initial fuel `a.length + b.length + 1` never runs out. -/
def matchTotalAux : Nat → List Char → List Char → Nat
  | 0, _, _ => 0
  | fuel + 1, a, b =>
    let lm := findLM a b
    if lm.2.2 = 0 then 0
    else matchTotalAux fuel (a.take lm.1) (b.take lm.2.1) + lm.2.2 +
      matchTotalAux fuel (a.drop (lm.1 + lm.2.2)) (b.drop (lm.2.1 + lm.2.2))

/-- Total size of the matching blocks of `SequenceMatcher(a, b)`. -/
def matchTotal (a b : List Char) : Nat := matchTotalAux (a.length + b.length + 1) a b

/-- `SequenceMatcher(a=a, b=b).ratio()` as an exact rational: `2*M/T`, and 1.0
when both sequences are empty.  (CPython computes this in binary floating
point; every value this development evaluates it at is exactly
representable, e.g. denominators that are powers of two.) -/
def ratioQ (a b : List Char) : ℚ :=
  if a.length + b.length = 0 then 1
  else (2 * (matchTotal a b : ℚ)) / ((a.length : ℚ) + (b.length : ℚ))

/-! ### Perceptual hash (src/app/monitor_core.py lines 63-76) -/

/-- `VISUAL_HAMMING_THRESHOLD = 8` : the fixed visual-change threshold. -/
def VISUAL_HAMMING_THRESHOLD : Nat := 8

/-- `ahash(image_bytes, size=8)`: grayscale, resize to `size x size`, then one
bit per pixel, set iff the pixel exceeds the mean intensity.  The input is
the downsampled grayscale buffer (PIL is external).  `p > avg` with
`avg = sum(pixels)/len(pixels)` is the exact comparison
`p * len > sum` (for the 64-pixel grid the float division by 64 is exact,
so the integer comparison is faithful). -/
def ahash (pixels : List Nat) : Nat :=
  if pixels.isEmpty then 0
  else
    (pixels.enum.foldl (fun bits ip =>
      if pixels.sum < ip.2 * pixels.length then bits ||| (1 <<< ip.1) else bits) 0)

/-- `hamming64(a, b) = (a ^ b).bit_count()`. -/
def hamming64 (a b : Nat) : Nat := popCount (Nat.xor a b)

/-! ### Deterministic materiality classifier (src/app/monitor_core.py 79-93)

The four pattern families.  Only the following observations of the regexes
are made by `classify_material_change`:

* `R.search(old) != R.search(new)`.  CPython `re.Match` does not define
  `__eq__`, so `!=` on match objects falls back to identity; two calls never
  return the identical object, and `None != None` is `False`.  Hence the
  expression is `False` exactly when *neither* text has a match, i.e. it
  equals `has_match(old) or has_match(new)` — this identity-comparison
  behaviour is load-bearing for the theorems below and is modelled exactly.
* `PRICE_RE.findall(old) != PRICE_RE.findall(new)`: `findall` with one
  capture group returns the list of group-1 strings (here: the one-character
  currency symbol of each non-overlapping match, left to right), and list
  inequality is genuine value inequality.

The scanners below implement the concrete regexes on character lists. -/

/-- Python `\w` (ASCII range): letters, digits, underscore. -/
def isWordChar (c : Char) : Bool := c.isAlphanum || c = '_'

/-- The currency alternation `(\$|€|£)` of `PRICE_RE`. -/
def isCurrency (c : Char) : Bool := c = '$' || c = '€' || c = '£'

/-- The separator class `[/.-]` of `DATE_RE`. -/
def isDateSep (c : Char) : Bool := c = '/' || c = '.' || c = '-'

/-- Does `PRICE_RE = (\$|€|£)\s?\d[\d,\.]*` match at the head of the list?
The tail `[\d,\.]*` matches the empty string, so only the currency symbol,
the optional single whitespace and the first digit are required. -/
def priceAt : List Char → Bool
  | c :: d :: rest =>
    isCurrency c &&
      (d.isDigit ||
        (pyIsSpace d && (match rest with | e :: _ => e.isDigit | [] => false)))
  | _ => false

/-- Scan every suffix for a predicate (regex search without anchors). -/
def scanAny (p : List Char → Bool) : List Char → Bool
  | [] => p []
  | c :: rest => p (c :: rest) || scanAny p rest

/-- `PRICE_RE.search(s) is not None`. -/
def price_has (s : String) : Bool := scanAny priceAt s.data

/-- Greedy tail `[\d,\.]*` length. -/
def countPriceTail : List Char → Nat
  | c :: rest => if c.isDigit || c = ',' || c = '.' then 1 + countPriceTail rest else 0
  | [] => 0

/-- Full `PRICE_RE` match at the head: the captured currency symbol and the
total match length (symbol, optional whitespace, first digit, greedy tail). -/
def priceMatchLen : List Char → Option (Char × Nat)
  | c :: d :: rest =>
    if isCurrency c then
      if d.isDigit then some (c, 2 + countPriceTail rest)
      else if pyIsSpace d then
        match rest with
        | e :: rest2 => if e.isDigit then some (c, 3 + countPriceTail rest2) else none
        | [] => none
      else none
    else none
  | _ => none

/-- Left-to-right non-overlapping scan of `PRICE_RE.findall`, fueled (every
match consumes at least two characters, so `length` fuel suffices). -/
def price_findall_aux : Nat → List Char → List Char
  | 0, _ => []
  | _ + 1, [] => []
  | fuel + 1, c :: rest =>
    match priceMatchLen (c :: rest) with
    | some g => g.1 :: price_findall_aux fuel ((c :: rest).drop g.2)
    | none => price_findall_aux fuel rest

/-- `PRICE_RE.findall(s)`: the group-1 (currency symbol) of each match. -/
def price_findall (s : String) : List Char := price_findall_aux s.data.length s.data

/-- Month-name alternative of `DATE_RE` (IGNORECASE), with the trailing `\b`. -/
def monthAt : List Char → Bool
  | a :: b :: c :: rest =>
    ([a.toLower, b.toLower, c.toLower] ∈
        ([['j','a','n'], ['f','e','b'], ['m','a','r'], ['a','p','r'], ['m','a','y'],
          ['j','u','n'], ['j','u','l'], ['a','u','g'], ['s','e','p'], ['o','c','t'],
          ['n','o','v'], ['d','e','c']] : List (List Char))) &&
      (match rest with | d :: _ => !isWordChar d | [] => true)
  | _ => false

/-- Numeric alternative `\d{1,2}[/.-]\d{1,2}([/.-]\d{2,4})?` matching at the
head (for presence the optional tail can always be dropped, and the second
digit group needs only its first digit). -/
def numDateAt : List Char → Bool
  | a :: b :: c :: rest =>
    a.isDigit &&
      ((isDateSep b && c.isDigit) ||
        (b.isDigit && isDateSep c && (match rest with | d :: _ => d.isDigit | [] => false)))
  | _ => false

/-- Scan for a pattern that must start at a `\b` boundary; both `DATE_RE`
alternatives and all stock/CTA phrases start with a word character, so the
boundary is: start of string or a preceding non-word character. -/
def scanBoundary (p : List Char → Bool) : Option Char → List Char → Bool
  | _, [] => false
  | prev, c :: rest =>
    ((match prev with | none => true | some q => !isWordChar q) && p (c :: rest)) ||
      scanBoundary p (some c) rest

/-- `DATE_RE.search(s) is not None`. -/
def date_has (s : String) : Bool := scanBoundary (fun l => numDateAt l || monthAt l) none s.data

/-- Case-insensitive literal-prefix match; returns the rest of the input. -/
def strAt : List Char → List Char → Option (List Char)
  | [], rest => some rest
  | _ :: _, [] => none
  | p :: ps, c :: cs => if c.toLower = p then strAt ps cs else none

/-- Trailing `\b`: end of input or a non-word character next. -/
def endBoundary : List Char → Bool
  | [] => true
  | c :: _ => !isWordChar c

/-- One phrase alternative with its trailing `\b`. -/
def phraseAt (pat : List Char) (l : List Char) : Bool :=
  match strAt pat l with
  | some rest => endBoundary rest
  | none => false

/-- `pre[- ]?order` alternative of `STOCK_RE`. -/
def preorderAt (l : List Char) : Bool :=
  match strAt ['p','r','e'] l with
  | some rest =>
    phraseAt ['o','r','d','e','r'] rest ||
      (match rest with
       | c :: rest2 => (c = '-' || c = ' ') && phraseAt ['o','r','d','e','r'] rest2
       | [] => false)
  | none => false

/-- `STOCK_RE.search(s) is not None`:
`\b(in stock|out of stock|unavailable|pre[- ]?order)\b`, IGNORECASE. -/
def stock_has (s : String) : Bool :=
  scanBoundary (fun l =>
    phraseAt ['i','n',' ','s','t','o','c','k'] l ||
    phraseAt ['o','u','t',' ','o','f',' ','s','t','o','c','k'] l ||
    phraseAt ['u','n','a','v','a','i','l','a','b','l','e'] l ||
    preorderAt l) none s.data

/-- `CTA_RE.search(s) is not None`:
`\b(buy now|add to cart|book now|subscribe)\b`, IGNORECASE. -/
def cta_has (s : String) : Bool :=
  scanBoundary (fun l =>
    phraseAt ['b','u','y',' ','n','o','w'] l ||
    phraseAt ['a','d','d',' ','t','o',' ','c','a','r','t'] l ||
    phraseAt ['b','o','o','k',' ','n','o','w'] l ||
    phraseAt ['s','u','b','s','c','r','i','b','e'] l) none s.data

/-- `classify_material_change(old, new)` from src/app/monitor_core.py 84-93.
Each `R.search(old) != R.search(new)` is the identity comparison described
above, hence `has(old) || has(new)`; the price family additionally compares
`findall` lists by value. -/
def classify_material_change (old new : String) : Bool × String :=
  let changed_price :=
    (price_has old || price_has new) || price_findall old ≠ price_findall new
  let changed_date := date_has old || date_has new
  let changed_stock := stock_has old || stock_has new
  let changed_cta := cta_has old || cta_has new
  if changed_stock || changed_price then (true, "high")
  else if changed_date then (true, "medium")
  else if changed_cta then (true, "low")
  else (false, "none")

/-! ### Persistent rows (src/app/db.py)

`Monitor` and `CheckResult` keep the source field names.  The serialized
columns `last_blocks_json` / `changes_json` round-trip through
`json.dumps`/`json.loads`, modelled as the payload itself (`last_blocks`,
`changes`).  All string columns are non-nullable with default `""` (so the
`is not None` guards in `run_check` are always true), and `last_blocks_json`
defaults to `"[]"`. -/

structure Monitor where
  id : Nat
  url : String
  selector : String
  render_js : Bool
  frequency_minutes : Nat
  last_content_hash : String
  last_image_hash : String
  last_checked_at : Option Nat
  is_active : Bool
  last_text : String
  ignore_robots : Bool
  last_blocks : List Block
deriving DecidableEq, Repr

structure CheckResult where
  monitor_id : Nat
  checked_at : Nat
  status_code : Nat
  blocked_reason : String
  raw_text_len : Nat
  norm_text_len : Nat
  text_change_ratio : ℚ
  changed_text : Bool
  changed_visual : Bool
  diff_preview : String
  visual_hamming : Nat
  material_change : Bool
  severity : String
  semantic_summary : String
  llm_json : String
  changes : DiffResult
  note : String
deriving DecidableEq, Repr

/-- A `CheckResult(monitor_id=..., note=...)` row with every other column at
its model default (db.py lines 32-53); `checked_at` is the insertion time. -/
def defaultResult (mid : Nat) (now : Nat) : CheckResult :=
  { monitor_id := mid, checked_at := now, status_code := 0, blocked_reason := "",
    raw_text_len := 0, norm_text_len := 0, text_change_ratio := 0,
    changed_text := false, changed_visual := false, diff_preview := "",
    visual_hamming := 0, material_change := false, severity := "none",
    semantic_summary := "", llm_json := "", changes := ⟨[], [], []⟩, note := "" }

/-! ### The check orchestration (src/app/main.py `run_check`, lines 91-176) -/

/-- Outcome of `fetch_html_and_screenshot` on success.  HTML parsing
(BeautifulSoup) is external, so the environment carries the value of
`extract_blocks_from_html(raw_html)` directly, plus the truthiness of
`raw_html`; `screenshot` is the decoded downsampled grayscale buffer, with
`none` standing for Python-falsy (absent or empty bytes). -/
structure FetchOk where
  text_for_diff : String
  screenshot : Option (List Nat)
  raw_html_present : Bool
  extracted_blocks : List Block
deriving Repr

/-- Result of `llm_decide_from_blocks`: the function catches every exception
internally and always returns an object with these attributes. -/
structure LlmOut where
  material_change : Bool
  severity : String
  summary_short : String
  json_str : String
deriving Repr

/-- Outcomes of the external collaborators for one `run_check` invocation:
the robots verdict, the fetch result (errors on the `Except.error` side),
the LLM verdict, the outcome of `send_email` (which does NOT catch SMTP
exceptions, unlike `send_slack`, which catches everything), and the clock. -/
structure Env where
  robots_allowed : Bool
  fetch : Except String FetchOk
  llm : LlmOut
  email_ok : Except String Unit
  now : Nat
deriving Repr

/-- Effects of one `run_check` invocation: the `CheckResult` rows committed,
in order; the final state of the monitor row; and whether fetch, email send
and slack send were invoked. -/
structure RunOutcome where
  results : List CheckResult
  monitor : Option Monitor
  fetched : Bool
  emailed : Bool
  slacked : Bool
deriving Repr

/-- `severity = getattr(llm_out, "severity", "none") or "none"`. -/
def severity_of (llm : LlmOut) : String :=
  if llm.severity = "" then "none" else llm.severity

/-- The `if screenshot:` paragraph (main.py 110-113): `visual_changed` and
`new_img_hash`.  `mon.last_image_hash` is a non-nullable string column, so
its `is not None` guard always passes and the comparison is a plain digest
inequality against the stored baseline. -/
def visual_part (mon : Monitor) (scr : Option (List Nat)) : Bool × Option String :=
  match scr with
  | some shot => (image_hash shot != mon.last_image_hash, some (image_hash shot))
  | none => (false, none)

/-- The body of the `try:` block of `run_check` after a successful fetch,
including the final notification step and the `except` handler that the
uncaught SMTP exception of `send_email` reaches (persisting a second,
error-noted row after the first commit).  `send_slack` never raises. -/
def normal_path (env : Env) (mon : Monitor) (f : FetchOk) : RunOutcome :=
  let text := normalize_text_block f.text_for_diff
  let raw_text_len := text.length
  let norm_text_len := raw_text_len
  let old_text := mon.last_text
  let new_text_hash := text_hash text
  let text_changed : Bool := new_text_hash != mon.last_content_hash
  let vp := visual_part mon f.screenshot
  let diff_preview := if text_changed then make_diff_preview old_text text else ""
  let change_ratio : ℚ := if text_changed then ratioQ old_text.data text.data else 0
  let new_blocks := if f.raw_html_present then f.extracted_blocks else []
  let filtered :=
    if new_blocks.isEmpty then filter_relevant ⟨[], [], []⟩ 60
    else filter_relevant (diff_blocks mon.last_blocks new_blocks) 60
  let likely_changed : Bool := text_changed || vp.1 ||
    !filtered.added.isEmpty || !filtered.removed.isEmpty || !filtered.modified.isEmpty
  let material_change : Bool := if likely_changed then env.llm.material_change else false
  let severity : String := if likely_changed then severity_of env.llm else "none"
  let summary_short : String := if likely_changed then env.llm.summary_short else ""
  let llm_json_str : String := if likely_changed then env.llm.json_str else ""
  let row : CheckResult :=
    { monitor_id := mon.id, checked_at := env.now, status_code := 200,
      blocked_reason := "", raw_text_len := raw_text_len,
      norm_text_len := norm_text_len, text_change_ratio := change_ratio,
      changed_text := text_changed, changed_visual := vp.1,
      diff_preview := if diff_preview != "" then diff_preview
        else if summary_short != "" then summary_short else "",
      visual_hamming := 0, material_change := material_change,
      severity := severity,
      semantic_summary := if summary_short != "" then summary_short else "",
      llm_json := if llm_json_str != "" then llm_json_str else "",
      changes := filtered, note := "" }
  let mon2 : Monitor :=
    { mon with
      last_content_hash := new_text_hash,
      last_text := text,
      last_image_hash := match vp.2 with | some h => h | none => mon.last_image_hash,
      last_blocks := new_blocks,
      last_checked_at := some env.now }
  if material_change || severity == "medium" || severity == "high" ||
      text_changed || vp.1 then
    match env.email_ok with
    | Except.error e =>
      ⟨[row, { defaultResult mon.id env.now with note := "Error: " ++ e }],
        some mon2, true, true, false⟩
    | Except.ok _ => ⟨[row], some mon2, true, true, true⟩
  else ⟨[row], some mon2, true, false, false⟩

/-- `run_check(monitor_id)` from src/app/main.py lines 91-176, as a function
of the collaborator outcomes and the monitor row fetched from the session
(`none` when `session.get` finds nothing). -/
def run_check (env : Env) (mon? : Option Monitor) : RunOutcome :=
  match mon? with
  | none => ⟨[], none, false, false, false⟩
  | some mon =>
    if !mon.is_active then ⟨[], some mon, false, false, false⟩
    else if !mon.ignore_robots && !env.robots_allowed then
      ⟨[{ defaultResult mon.id env.now with note := "Blocked by robots.txt" }],
        some mon, false, false, false⟩
    else
      match env.fetch with
      | Except.error e =>
        ⟨[{ defaultResult mon.id env.now with note := "Error: " ++ e }],
          some mon, true, false, false⟩
      | Except.ok f => normal_path env mon f

/-! ### Lemmas about the path index and `diff_blocks` -/

/-- Semantics of one group after combining an existing group with newly
filtered blocks; `none` encodes an absent dict key. -/
def combineGroup : Option (List Block) → List Block → Option (List Block)
  | none, [] => none
  | none, l@(_ :: _) => some l
  | some g, l => some (g ++ l)

theorem combineGroup_nil (o : Option (List Block)) : combineGroup o [] = o := by
  cases o <;> simp [combineGroup]

theorem lookupIdx_addToIndex (idx : List (String × List Block)) (b : Block) (p : String) :
    lookupIdx (addToIndex idx b) p =
      if p = b.path then some (((lookupIdx idx p).getD []) ++ [b]) else lookupIdx idx p := by
  induction idx with
  | nil =>
    by_cases h : p = b.path
    · simp [addToIndex, lookupIdx, h]
    · simp [addToIndex, lookupIdx, h, Ne.symm h]
  | cons e rest ih =>
    by_cases he : e.1 = b.path
    · by_cases hp : p = b.path
      · have hep : e.1 = p := he.trans hp.symm
        simp [addToIndex, lookupIdx, he, hp, hep]
      · have hep : e.1 ≠ p := fun hh => hp (hh.symm.trans he)
        have hbp : b.path ≠ p := fun hh => hp hh.symm
        simp [addToIndex, lookupIdx, he, hp, hep, hbp]
    · by_cases hep : e.1 = p
      · have hp : p ≠ b.path := fun hh => he (hep.trans hh)
        simp [addToIndex, lookupIdx, he, hp, hep]
      · simp [addToIndex, lookupIdx, he, hep, ih]

theorem lookupIdx_foldl (bs : List Block) (idx : List (String × List Block)) (p : String) :
    lookupIdx (bs.foldl addToIndex idx) p =
      combineGroup (lookupIdx idx p) (bs.filter (fun b => decide (b.path = p))) := by
  induction bs generalizing idx with
  | nil => simp [combineGroup_nil]
  | cons b bs ih =>
    rw [List.foldl_cons, ih, lookupIdx_addToIndex]
    by_cases hp : p = b.path
    · rw [if_pos hp]
      have hd : (decide (b.path = p)) = true := by simp [hp]
      have hfil : List.filter (fun x : Block => decide (x.path = p)) (b :: bs) =
          b :: List.filter (fun x : Block => decide (x.path = p)) bs := by
        simp [List.filter_cons, hd]
      rw [hfil]
      cases h : lookupIdx idx p with
      | none => simp [combineGroup]
      | some g => simp [combineGroup]
    · rw [if_neg hp]
      have hd : ¬(b.path = p) := fun hh => hp hh.symm
      have hfil : List.filter (fun x : Block => decide (x.path = p)) (b :: bs) =
          List.filter (fun x : Block => decide (x.path = p)) bs := by
        simp [List.filter_cons, hd]
      rw [hfil]

theorem index_blocks_lookup (bs : List Block) (p : String) :
    lookupIdx (index_blocks bs) p =
      combineGroup none (bs.filter (fun b => decide (b.path = p))) :=
  lookupIdx_foldl bs [] p

theorem index_lookup_none_iff (bs : List Block) (p : String) :
    lookupIdx (index_blocks bs) p = none ↔ ∀ b ∈ bs, b.path ≠ p := by
  rw [index_blocks_lookup]
  constructor
  · intro h b hb hp
    cases hfil : bs.filter (fun b => decide (b.path = p)) with
    | nil =>
      have := List.filter_eq_nil_iff.mp hfil b hb
      simp [hp] at this
    | cons x xs => rw [hfil] at h; simp [combineGroup] at h
  · intro h
    have hfil : bs.filter (fun b => decide (b.path = p)) = [] :=
      List.filter_eq_nil_iff.mpr (fun b hb => by simp [h b hb])
    rw [hfil]; rfl

theorem index_lookup_some (bs : List Block) (p : String) (g : List Block)
    (h : lookupIdx (index_blocks bs) p = some g) :
    g = bs.filter (fun b => decide (b.path = p)) ∧ g ≠ [] := by
  rw [index_blocks_lookup] at h
  cases hfil : bs.filter (fun b => decide (b.path = p)) with
  | nil => rw [hfil] at h; simp [combineGroup] at h
  | cons x xs =>
    rw [hfil] at h
    simp only [combineGroup, Option.some.injEq] at h
    subst h
    simp [hfil]

/-- Keys of the path index are pairwise distinct. -/
def KeysND (idx : List (String × List Block)) : Prop :=
  idx.Pairwise (fun e f => e.1 ≠ f.1)

theorem mem_addToIndex_key (idx : List (String × List Block)) (b : Block) :
    ∀ f ∈ addToIndex idx b, f.1 = b.path ∨ f ∈ idx := by
  induction idx with
  | nil => intro f hf; simp [addToIndex] at hf; left; rw [hf]
  | cons e rest ih =>
    intro f hf
    by_cases he : e.1 = b.path
    · rw [addToIndex, if_pos he] at hf
      rcases List.mem_cons.mp hf with h | h
      · left; rw [h]; exact he
      · right; exact List.mem_cons_of_mem _ h
    · rw [addToIndex, if_neg he] at hf
      rcases List.mem_cons.mp hf with h | h
      · right; rw [h]; exact List.mem_cons_self _ _
      · rcases ih f h with h1 | h1
        · left; exact h1
        · right; exact List.mem_cons_of_mem _ h1

theorem keysND_addToIndex (idx : List (String × List Block)) (b : Block)
    (h : KeysND idx) : KeysND (addToIndex idx b) := by
  induction idx with
  | nil => simp [addToIndex, KeysND]
  | cons e rest ih =>
    rw [KeysND, List.pairwise_cons] at h
    by_cases he : e.1 = b.path
    · rw [KeysND, addToIndex, if_pos he, List.pairwise_cons]
      exact ⟨fun f hf => h.1 f hf, h.2⟩
    · rw [KeysND, addToIndex, if_neg he, List.pairwise_cons]
      refine ⟨?_, ih h.2⟩
      intro f hf
      rcases mem_addToIndex_key rest b f hf with h1 | h1
      · rw [h1]; exact he
      · exact h.1 f h1

theorem keysND_index (bs : List Block) : KeysND (index_blocks bs) := by
  have main : ∀ idx, KeysND idx → KeysND (bs.foldl addToIndex idx) := by
    induction bs with
    | nil => intro idx h; exact h
    | cons b bs ih => intro idx h; exact ih _ (keysND_addToIndex idx b h)
  exact main [] (by simp [KeysND])

theorem lookup_of_mem (idx : List (String × List Block)) (hnd : KeysND idx)
    (e : String × List Block) (he : e ∈ idx) : lookupIdx idx e.1 = some e.2 := by
  induction idx with
  | nil => simp at he
  | cons f rest ih =>
    rw [KeysND, List.pairwise_cons] at hnd
    rcases List.mem_cons.mp he with h | h
    · rw [h, lookupIdx, if_pos rfl]
    · rw [lookupIdx, if_neg (hnd.1 e h), ih hnd.2 h]

theorem mem_of_lookup (idx : List (String × List Block)) (p : String) (g : List Block)
    (h : lookupIdx idx p = some g) : (p, g) ∈ idx := by
  induction idx with
  | nil => simp [lookupIdx] at h
  | cons e rest ih =>
    rw [lookupIdx] at h
    by_cases he : e.1 = p
    · rw [if_pos he] at h
      rcases e with ⟨e1, e2⟩
      simp only [Option.some.injEq] at h
      have h1 : e1 = p := he
      rw [List.mem_cons]
      left
      rw [h1, h]
    · rw [if_neg he] at h
      exact List.mem_cons_of_mem _ (ih h)

theorem mem_amStep_foldl_fst (pidx : List (String × List Block))
    (entries : List (String × List Block)) (am0 : List Block × List Block) (x : Block) :
    (x ∈ (entries.foldl (amStep pidx) am0).1 ↔
      x ∈ am0.1 ∨ ∃ pc ∈ entries,
        (lookupIdx pidx pc.1 = none ∨ lookupIdx pidx pc.1 = some []) ∧ x ∈ pc.2) := by
  induction entries generalizing am0 with
  | nil => simp
  | cons pc rest ih =>
    rw [List.foldl_cons, ih]
    rcases hlk : lookupIdx pidx pc.1 with _ | pv
    · simp only [amStep, hlk, List.mem_append, List.mem_cons]
      constructor
      · rintro ((h | h) | h)
        · exact Or.inl h
        · exact Or.inr ⟨pc, Or.inl rfl, Or.inl hlk, h⟩
        · rcases h with ⟨e, he, hc, hx⟩
          exact Or.inr ⟨e, Or.inr he, hc, hx⟩
      · rintro (h | ⟨e, (rfl | he), hc, hx⟩)
        · exact Or.inl (Or.inl h)
        · exact Or.inl (Or.inr hx)
        · exact Or.inr ⟨e, he, hc, hx⟩
    · rcases hpv : pv with _ | ⟨y, ys⟩
      · simp only [amStep, hlk, hpv, List.isEmpty_nil, if_true, List.mem_append, List.mem_cons]
        constructor
        · rintro ((h | h) | h)
          · exact Or.inl h
          · exact Or.inr ⟨pc, Or.inl rfl, Or.inr (hpv ▸ hlk), h⟩
          · rcases h with ⟨e, he, hc, hx⟩
            exact Or.inr ⟨e, Or.inr he, hc, hx⟩
        · rintro (h | ⟨e, (rfl | he), hc, hx⟩)
          · exact Or.inl (Or.inl h)
          · exact Or.inl (Or.inr hx)
          · exact Or.inr ⟨e, he, hc, hx⟩
      · rw [hpv] at hlk
        simp only [amStep, hlk, List.isEmpty_cons, Bool.false_eq_true, if_false,
          List.mem_cons]
        constructor
        · rintro (h | h)
          · exact Or.inl h
          · rcases h with ⟨e, he, hc, hx⟩
            exact Or.inr ⟨e, Or.inr he, hc, hx⟩
        · rintro (h | ⟨e, (rfl | he), hc, hx⟩)
          · exact Or.inl h
          · rcases hc with hc | hc
            · rw [hc] at hlk; exact absurd hlk (by simp)
            · rw [hc] at hlk; simp at hlk
          · exact Or.inr ⟨e, he, hc, hx⟩

theorem mem_amStep_foldl_snd (pidx : List (String × List Block))
    (entries : List (String × List Block)) (am0 : List Block × List Block) (x : Block) :
    (x ∈ (entries.foldl (amStep pidx) am0).2 ↔
      x ∈ am0.2 ∨ ∃ pc ∈ entries, ∃ pv, lookupIdx pidx pc.1 = some pv ∧ pv ≠ [] ∧
        x ∈ pc.2 ∧ pv.any (fun pb => pb.hash == x.hash) = false) := by
  induction entries generalizing am0 with
  | nil => simp
  | cons pc rest ih =>
    rw [List.foldl_cons, ih]
    rcases hlk : lookupIdx pidx pc.1 with _ | pv
    · simp only [amStep, hlk, List.mem_cons]
      constructor
      · rintro (h | ⟨e, he, hc⟩)
        · exact Or.inl h
        · exact Or.inr ⟨e, Or.inr he, hc⟩
      · rintro (h | ⟨e, (rfl | he), pv, hpv, hne, hx, hany⟩)
        · exact Or.inl h
        · rw [hlk] at hpv; simp at hpv
        · exact Or.inr ⟨e, he, pv, hpv, hne, hx, hany⟩
    · rcases hpv : pv with _ | ⟨y, ys⟩
      · rw [hpv] at hlk
        simp only [amStep, hlk, List.isEmpty_nil, if_true, List.mem_cons]
        constructor
        · rintro (h | ⟨e, he, hc⟩)
          · exact Or.inl h
          · exact Or.inr ⟨e, Or.inr he, hc⟩
        · rintro (h | ⟨e, (rfl | he), pw, hpw, hne, hx, hany⟩)
          · exact Or.inl h
          · rw [hlk] at hpw
            simp only [Option.some.injEq] at hpw
            exact absurd hpw.symm hne
          · exact Or.inr ⟨e, he, pw, hpw, hne, hx, hany⟩
      · rw [hpv] at hlk
        simp only [amStep, hlk, List.isEmpty_cons, Bool.false_eq_true, if_false,
          List.mem_cons, List.mem_append]
        constructor
        · rintro ((h | h) | h)
          · exact Or.inl h
          · have hm := List.mem_filter.mp h
            refine Or.inr ⟨pc, Or.inl rfl, y :: ys, hlk, by simp, hm.1, ?_⟩
            have := hm.2
            simpa using this
          · rcases h with ⟨e, he, hc⟩
            exact Or.inr ⟨e, Or.inr he, hc⟩
        · rintro (h | ⟨e, (rfl | he), pw, hpw, hne, hx, hany⟩)
          · exact Or.inl (Or.inl h)
          · rw [hlk] at hpw
            simp only [Option.some.injEq] at hpw
            refine Or.inl (Or.inr (List.mem_filter.mpr ⟨hx, ?_⟩))
            rw [← hpw] at hany
            simpa using hany
          · exact Or.inr ⟨e, he, pw, hpw, hne, hx, hany⟩

theorem mem_removed_foldl (cidx : List (String × List Block))
    (entries : List (String × List Block)) (acc0 : List Block) (x : Block) :
    (x ∈ entries.foldl
        (fun acc pc => if lookupIdx cidx pc.1 = none then acc ++ pc.2 else acc) acc0 ↔
      x ∈ acc0 ∨ ∃ pc ∈ entries, lookupIdx cidx pc.1 = none ∧ x ∈ pc.2) := by
  induction entries generalizing acc0 with
  | nil => simp
  | cons pc rest ih =>
    rw [List.foldl_cons, ih]
    by_cases hlk : lookupIdx cidx pc.1 = none
    · simp only [if_pos hlk, List.mem_append, List.mem_cons]
      constructor
      · rintro ((h | h) | h)
        · exact Or.inl h
        · exact Or.inr ⟨pc, Or.inl rfl, hlk, h⟩
        · rcases h with ⟨e, he, hc⟩
          exact Or.inr ⟨e, Or.inr he, hc⟩
      · rintro (h | ⟨e, (rfl | he), hc, hx⟩)
        · exact Or.inl (Or.inl h)
        · exact Or.inl (Or.inr hx)
        · exact Or.inr ⟨e, he, hc, hx⟩
    · simp only [if_neg hlk, List.mem_cons]
      constructor
      · rintro (h | h)
        · exact Or.inl h
        · rcases h with ⟨e, he, hc⟩
          exact Or.inr ⟨e, Or.inr he, hc⟩
      · rintro (h | ⟨e, (rfl | he), hc, hx⟩)
        · exact Or.inl h
        · exact absurd hc hlk
        · exact Or.inr ⟨e, he, hc, hx⟩

/-- Added blocks of `diff_blocks` are exactly the current blocks whose path
does not occur in the previous block list. -/
theorem mem_diff_added (prev curr : List Block) (x : Block) :
    x ∈ (diff_blocks prev curr).added ↔ x ∈ curr ∧ ∀ q ∈ prev, q.path ≠ x.path := by
  show x ∈ ((index_blocks curr).foldl (amStep (index_blocks prev)) ([], [])).1 ↔ _
  rw [mem_amStep_foldl_fst]
  simp only [List.not_mem_nil, false_or]
  constructor
  · rintro ⟨pc, hpc, hcond, hx⟩
    have hlk := lookup_of_mem _ (keysND_index curr) pc hpc
    obtain ⟨hfil, hne⟩ := index_lookup_some curr pc.1 pc.2 hlk
    rw [hfil] at hx
    have hmem := List.mem_filter.mp hx
    refine ⟨hmem.1, ?_⟩
    have hnone : lookupIdx (index_blocks prev) pc.1 = none := by
      rcases hcond with h | h
      · exact h
      · obtain ⟨_, hne2⟩ := index_lookup_some prev pc.1 [] h
        exact absurd rfl hne2
    have hpath : x.path = pc.1 := of_decide_eq_true hmem.2
    rw [← hpath] at hnone
    exact (index_lookup_none_iff prev x.path).mp hnone
  · rintro ⟨hx, hnp⟩
    have hnone : lookupIdx (index_blocks prev) x.path = none :=
      (index_lookup_none_iff prev x.path).mpr hnp
    have hsome : lookupIdx (index_blocks curr) x.path =
        some (curr.filter (fun b => decide (b.path = x.path))) := by
      rw [index_blocks_lookup]
      cases hfil : curr.filter (fun b => decide (b.path = x.path)) with
      | nil =>
        exfalso
        have := List.filter_eq_nil_iff.mp hfil x hx
        simp at this
      | cons y ys => rfl
    refine ⟨(x.path, curr.filter (fun b => decide (b.path = x.path))),
      mem_of_lookup _ _ _ hsome, Or.inl hnone, ?_⟩
    exact List.mem_filter.mpr ⟨hx, by simp⟩

/-- Removed blocks of `diff_blocks` are exactly the previous blocks whose
path does not occur in the current block list. -/
theorem mem_diff_removed (prev curr : List Block) (x : Block) :
    x ∈ (diff_blocks prev curr).removed ↔ x ∈ prev ∧ ∀ q ∈ curr, q.path ≠ x.path := by
  show x ∈ (index_blocks prev).foldl
      (fun acc pc => if lookupIdx (index_blocks curr) pc.1 = none then acc ++ pc.2 else acc)
      [] ↔ _
  rw [mem_removed_foldl]
  simp only [List.not_mem_nil, false_or]
  constructor
  · rintro ⟨pc, hpc, hcond, hx⟩
    have hlk := lookup_of_mem _ (keysND_index prev) pc hpc
    obtain ⟨hfil, hne⟩ := index_lookup_some prev pc.1 pc.2 hlk
    rw [hfil] at hx
    have hmem := List.mem_filter.mp hx
    refine ⟨hmem.1, ?_⟩
    have hpath : x.path = pc.1 := of_decide_eq_true hmem.2
    rw [← hpath] at hcond
    exact (index_lookup_none_iff curr x.path).mp hcond
  · rintro ⟨hx, hnp⟩
    have hnone : lookupIdx (index_blocks curr) x.path = none :=
      (index_lookup_none_iff curr x.path).mpr hnp
    have hsome : lookupIdx (index_blocks prev) x.path =
        some (prev.filter (fun b => decide (b.path = x.path))) := by
      rw [index_blocks_lookup]
      cases hfil : prev.filter (fun b => decide (b.path = x.path)) with
      | nil =>
        exfalso
        have := List.filter_eq_nil_iff.mp hfil x hx
        simp at this
      | cons y ys => rfl
    refine ⟨(x.path, prev.filter (fun b => decide (b.path = x.path))),
      mem_of_lookup _ _ _ hsome, hnone, ?_⟩
    exact List.mem_filter.mpr ⟨hx, by simp⟩

/-- Modified blocks of `diff_blocks` are exactly the current blocks at a path
shared with the previous list whose hash occurs in no previous block at
that path (hash-set membership, not positional pairing). -/
theorem mem_diff_modified (prev curr : List Block) (x : Block) :
    x ∈ (diff_blocks prev curr).modified ↔
      x ∈ curr ∧ (∃ q ∈ prev, q.path = x.path) ∧
        ∀ q ∈ prev, q.path = x.path → q.hash ≠ x.hash := by
  show x ∈ ((index_blocks curr).foldl (amStep (index_blocks prev)) ([], [])).2 ↔ _
  rw [mem_amStep_foldl_snd]
  simp only [List.not_mem_nil, false_or]
  constructor
  · rintro ⟨pc, hpc, pv, hpv, hpvne, hx, hany⟩
    have hlk := lookup_of_mem _ (keysND_index curr) pc hpc
    obtain ⟨hfil, _⟩ := index_lookup_some curr pc.1 pc.2 hlk
    rw [hfil] at hx
    have hmem := List.mem_filter.mp hx
    have hpath : x.path = pc.1 := of_decide_eq_true hmem.2
    obtain ⟨hfilp, _⟩ := index_lookup_some prev pc.1 pv hpv
    refine ⟨hmem.1, ?_, ?_⟩
    · rcases pv with _ | ⟨y, ys⟩
      · exact absurd rfl hpvne
      · have hy : y ∈ prev.filter (fun b => decide (b.path = pc.1)) := by
          rw [← hfilp]; exact List.mem_cons_self _ _
        have hym := List.mem_filter.mp hy
        exact ⟨y, hym.1, (of_decide_eq_true hym.2).trans hpath.symm⟩
    · intro q hq hqp
      have hqf : q ∈ pv := by
        rw [hfilp]
        exact List.mem_filter.mpr ⟨hq, by simp [hqp, hpath]⟩
      intro hqh
      have : pv.any (fun pb => pb.hash == x.hash) = true :=
        List.any_eq_true.mpr ⟨q, hqf, by simp [hqh]⟩
      rw [hany] at this
      exact Bool.false_ne_true this
  · rintro ⟨hx, ⟨q0, hq0, hq0p⟩, hnh⟩
    have hsomec : lookupIdx (index_blocks curr) x.path =
        some (curr.filter (fun b => decide (b.path = x.path))) := by
      rw [index_blocks_lookup]
      cases hfil : curr.filter (fun b => decide (b.path = x.path)) with
      | nil =>
        exfalso
        have := List.filter_eq_nil_iff.mp hfil x hx
        simp at this
      | cons y ys => rfl
    have hsomep : lookupIdx (index_blocks prev) x.path =
        some (prev.filter (fun b => decide (b.path = x.path))) := by
      rw [index_blocks_lookup]
      cases hfil : prev.filter (fun b => decide (b.path = x.path)) with
      | nil =>
        exfalso
        have := List.filter_eq_nil_iff.mp hfil q0 hq0
        simp [hq0p] at this
      | cons y ys => rfl
    refine ⟨(x.path, curr.filter (fun b => decide (b.path = x.path))),
      mem_of_lookup _ _ _ hsomec,
      prev.filter (fun b => decide (b.path = x.path)), hsomep, ?_, ?_, ?_⟩
    · intro hnil
      have := List.filter_eq_nil_iff.mp hnil q0 hq0
      simp [hq0p] at this
    · exact List.mem_filter.mpr ⟨hx, by simp⟩
    · rw [List.any_eq_false]
      intro pb hpb
      have hm := List.mem_filter.mp hpb
      have := hnh pb hm.1 (of_decide_eq_true hm.2)
      simp [this]

/-! ### Lemmas about the relevance sort -/

/-- Descending order by score: every element bounds all later ones. -/
def DescBy (l : List Block) : Prop := l.Pairwise (fun a b => score b ≤ score a)

theorem mem_insertDesc (b : Block) (l : List Block) (x : Block) :
    x ∈ insertDesc b l ↔ x = b ∨ x ∈ l := by
  induction l with
  | nil => simp [insertDesc]
  | cons y ys ih =>
    by_cases h : score b < score y
    · rw [insertDesc, if_pos h]
      simp only [List.mem_cons, ih]
      tauto
    · rw [insertDesc, if_neg h]
      simp only [List.mem_cons]

theorem perm_insertDesc (b : Block) (l : List Block) :
    List.Perm (insertDesc b l) (b :: l) := by
  induction l with
  | nil => rfl
  | cons y ys ih =>
    by_cases h : score b < score y
    · rw [insertDesc, if_pos h]
      exact (ih.cons y).trans (List.Perm.swap b y ys)
    · rw [insertDesc, if_neg h]

theorem sortDesc_perm (l : List Block) : List.Perm (sortDesc l) l := by
  induction l with
  | nil => rfl
  | cons x xs ih =>
    show List.Perm (insertDesc x (sortDesc xs)) (x :: xs)
    exact (perm_insertDesc x (sortDesc xs)).trans (ih.cons x)

theorem pairwise_insertDesc (b : Block) (l : List Block) (h : DescBy l) :
    DescBy (insertDesc b l) := by
  induction l with
  | nil => simp [insertDesc, DescBy]
  | cons y ys ih =>
    rw [DescBy, List.pairwise_cons] at h
    by_cases hc : score b < score y
    · rw [DescBy, insertDesc, if_pos hc, List.pairwise_cons]
      refine ⟨?_, ih h.2⟩
      intro z hz
      rcases (mem_insertDesc b ys z).mp hz with hzb | hz2
      · rw [hzb]; exact le_of_lt hc
      · exact h.1 z hz2
    · rw [DescBy, insertDesc, if_neg hc, List.pairwise_cons]
      refine ⟨?_, ?_⟩
      · intro z hz
        rcases List.mem_cons.mp hz with hzy | hz2
        · rw [hzy]; exact not_lt.mp hc
        · exact le_trans (h.1 z hz2) (not_lt.mp hc)
      · exact List.pairwise_cons.mpr h

theorem sortDesc_sorted (l : List Block) : DescBy (sortDesc l) := by
  induction l with
  | nil => simp [sortDesc, DescBy]
  | cons x xs ih => exact pairwise_insertDesc x (sortDesc xs) ih

theorem filter_insertDesc (b : Block) (l : List Block) (s : Int) :
    (insertDesc b l).filter (fun x => decide (score x = s)) =
      (b :: l).filter (fun x => decide (score x = s)) := by
  induction l with
  | nil => rfl
  | cons y ys ih =>
    by_cases hc : score b < score y
    · rw [insertDesc, if_pos hc]
      by_cases hbs : score b = s
      · have hys : ¬(score y = s) := by
          rw [← hbs]
          exact fun hh => absurd hh (ne_of_gt hc)
        simp [List.filter_cons, hbs, hys, ih]
      · by_cases hys : score y = s <;> simp [List.filter_cons, hbs, hys, ih]
    · rw [insertDesc, if_neg hc]

theorem sortDesc_stable (l : List Block) (s : Int) :
    (sortDesc l).filter (fun x => decide (score x = s)) =
      l.filter (fun x => decide (score x = s)) := by
  induction l with
  | nil => rfl
  | cons x xs ih =>
    show (insertDesc x (sortDesc xs)).filter _ = _
    rw [filter_insertDesc, List.filter_cons, List.filter_cons, ih]

/-- Type bonus of a non-price block (analysis helper, not from the source). -/
def nonPriceBonus (b : Block) : Int :=
  if b.type = "headline" then 3 else if b.type = "list_item" then 2 else 0

theorem nonPriceBonus_range (b : Block) :
    0 ≤ nonPriceBonus b ∧ nonPriceBonus b ≤ 3 := by
  unfold nonPriceBonus
  by_cases h1 : b.type = "headline"
  · simp [h1]
  · by_cases h2 : b.type = "list_item" <;> simp [h1, h2]

theorem nonPriceBonus_eq_three (b : Block) (h : nonPriceBonus b = 3) :
    b.type = "headline" := by
  unfold nonPriceBonus at h
  by_cases h1 : b.type = "headline"
  · exact h1
  · by_cases h2 : b.type = "list_item" <;> simp [h1, h2] at h

theorem score_of_price (a : Block) (ha : a.type = "price") :
    score a = (if a.text.length < 12 then a.weight + 5 - 2 else a.weight + 5) := by
  simp [score, ha]

theorem score_of_nonprice (b : Block) (hb : b.type ≠ "price") :
    score b = (if b.text.length < 12 then b.weight + nonPriceBonus b - 2
      else b.weight + nonPriceBonus b) := by
  by_cases h1 : b.type = "headline"
  · simp [score, nonPriceBonus, hb, h1]
  · by_cases h2 : b.type = "list_item" <;> simp [score, nonPriceBonus, hb, h1, h2]

/-- At equal base weight a price block never scores below a non-price block,
and a score tie forces exactly the penalized-price / unpenalized-headline
configuration. -/
theorem price_score_fact (a b : Block) (hw : a.weight = b.weight)
    (ha : a.type = "price") (hb : b.type ≠ "price") :
    score b ≤ score a ∧
      (score a = score b →
        a.text.length < 12 ∧ b.type = "headline" ∧ 12 ≤ b.text.length) := by
  have ea := score_of_price a ha
  have eb := score_of_nonprice b hb
  have hr := nonPriceBonus_range b
  constructor
  · rw [ea, eb, hw]
    by_cases h1 : a.text.length < 12 <;> by_cases h2 : b.text.length < 12 <;>
      simp only [h1, h2, if_true, if_false] <;> omega
  · intro heq
    rw [ea, eb, hw] at heq
    by_cases h1 : a.text.length < 12 <;> by_cases h2 : b.text.length < 12 <;>
      simp only [h1, h2, if_true, if_false] at heq
    · omega
    · have h3 : nonPriceBonus b = 3 := by omega
      exact ⟨h1, nonPriceBonus_eq_three b h3, Nat.le_of_not_lt h2⟩
    · omega
    · omega

/-- In a `sortDesc` result, whatever comes earlier has at least the score of
whatever comes later. -/
theorem sorted_decomp (l pre mid post : List Block) (a b : Block)
    (h : sortDesc l = pre ++ b :: (mid ++ a :: post)) : score a ≤ score b := by
  have hp := sortDesc_sorted l
  rw [DescBy, h, List.pairwise_append] at hp
  have h2 := hp.2.1
  rw [List.pairwise_cons] at h2
  exact h2.1 a (by simp)

/-- A price block of equal base weight is never sorted after the non-price
block, except in the tie configuration (where stability keeps input order). -/
theorem price_never_after (l pre mid post : List Block) (a b : Block)
    (hw : a.weight = b.weight) (ha : a.type = "price") (hb : b.type ≠ "price")
    (hnt : ¬(a.text.length < 12 ∧ b.type = "headline" ∧ 12 ≤ b.text.length)) :
    sortDesc l ≠ pre ++ b :: (mid ++ a :: post) := by
  intro h
  have h1 := sorted_decomp l pre mid post a b h
  have h2 := price_score_fact a b hw ha hb
  exact hnt (h2.2 (le_antisymm h1 h2.1))

/-! ### Concrete fixtures used by the claim theorems -/

/-- The digest model never returns the empty string (a SHA-256 hexdigest has
64 characters, the column default is `""`). -/
theorem text_hash_ne_empty (t : String) : text_hash t ≠ "" := by
  intro h
  have hlen := congrArg String.length h
  rw [text_hash, String.length_append] at hlen
  have h7 : ("sha256:" : String).length = 7 := rfl
  have h0 : ("" : String).length = 0 := rfl
  rw [h7, h0] at hlen
  omega

def llmNeutral : LlmOut := ⟨false, "none", "", ""⟩

def monBase : Monitor :=
  { id := 1, url := "http://example.com/", selector := "", render_js := false,
    frequency_minutes := 60, last_content_hash := text_hash "old page",
    last_image_hash := "", last_checked_at := none, is_active := true,
    last_text := "old page", ignore_robots := false, last_blocks := [] }

def envBase : Env :=
  { robots_allowed := true, fetch := Except.ok ⟨"new page", none, false, []⟩,
    llm := llmNeutral, email_ok := Except.ok (), now := 0 }

def blockA : Block :=
  ⟨"paragraph", "Launch announcement for the new product", "main > p:nth-of-type(1)", 4, "hashA"⟩

def blockA1 : Block :=
  ⟨"paragraph", "old paragraph text", "main > p:nth-of-type(1)", 4, "hash1"⟩

def blockA2 : Block :=
  ⟨"paragraph", "new paragraph text", "main > p:nth-of-type(1)", 4, "hash2"⟩

def blockX : Block :=
  ⟨"list_item", "first repeated item", "main > ul > li:nth-of-type(1)", 5, "hashX"⟩

def blockY : Block :=
  ⟨"list_item", "second repeated item", "main > ul > li:nth-of-type(1)", 5, "hashY"⟩

def hlLong : Block := ⟨"headline", "A long headline text", "h2:nth-of-type(1)", 9, "hh"⟩

def prShort : Block := ⟨"price", "$5", "text-scan", 9, "hp"⟩

def paraLong : Block := ⟨"paragraph", "A long paragraph of text", "p:nth-of-type(1)", 9, "hq"⟩

/-! ### The claims -/

/-- C2: the spec says the deterministic rule classifier maps identical
previous and current texts to material=false, severity=none.  The code
compares `re.Match` objects with `!=` (identity), so any text containing a
price pattern is classified (true, "high") even against itself: the claimed
universal property fails at old = new = "Price $10". -/
theorem C2_identical_text_with_price_is_high :
    classify_material_change "Price $10" "Price $10" = (true, "high") ∧
    ((true, "high") : Bool × String) ≠ (false, "none") := by
  exact ⟨by decide, by decide⟩

/-- C4: `diff_blocks` groups by structural path; added are the current blocks
at paths absent from previous, removed the previous blocks at paths absent
from current, modified the current blocks at shared paths whose hash occurs
in no previous block at that path; with the three concrete examples and the
reorder-at-one-path example from the spec. -/
theorem C4_diff_blocks_characterization :
    (∀ prev curr x, x ∈ (diff_blocks prev curr).added ↔
        x ∈ curr ∧ ∀ q ∈ prev, q.path ≠ x.path) ∧
    (∀ prev curr x, x ∈ (diff_blocks prev curr).removed ↔
        x ∈ prev ∧ ∀ q ∈ curr, q.path ≠ x.path) ∧
    (∀ prev curr x, x ∈ (diff_blocks prev curr).modified ↔
        x ∈ curr ∧ (∃ q ∈ prev, q.path = x.path) ∧
          ∀ q ∈ prev, q.path = x.path → q.hash ≠ x.hash) ∧
    diff_blocks [] [blockA] = ⟨[blockA], [], []⟩ ∧
    diff_blocks [blockA1] [blockA2] = ⟨[], [], [blockA2]⟩ ∧
    diff_blocks [blockA] [] = ⟨[], [blockA], []⟩ ∧
    diff_blocks [blockX, blockY] [blockY, blockX] = ⟨[], [], []⟩ :=
  ⟨mem_diff_added, mem_diff_removed, mem_diff_modified,
    by decide, by decide, by decide, by decide⟩

/-- C4 witness: the characterization applied at concrete inputs. -/
theorem C4_diff_blocks_characterization_witness :
    blockA ∈ (diff_blocks [] [blockA]).added ∧
    blockA2 ∈ (diff_blocks [blockA1] [blockA2]).modified :=
  ⟨(C4_diff_blocks_characterization.1 [] [blockA] blockA).mpr (by decide),
   (C4_diff_blocks_characterization.2.2.1 [blockA1] [blockA2] blockA2).mpr (by decide)⟩

/-- C6: when the target does not opt out of robots and the robots policy
disallows the URL, `run_check` invokes no fetch, persists exactly one
`CheckResult` carrying the blocked note, and leaves the monitor row (all
baseline fields) untouched. -/
theorem C6_robots_blocked (env : Env) (mon : Monitor)
    (hact : mon.is_active = true) (hopt : mon.ignore_robots = false)
    (hrob : env.robots_allowed = false) :
    run_check env (some mon) =
      ⟨[{ defaultResult mon.id env.now with note := "Blocked by robots.txt" }],
        some mon, false, false, false⟩ := by
  simp [run_check, hact, hopt, hrob]

def monW6 : Monitor := monBase

def envW6 : Env := { envBase with robots_allowed := false }

/-- C6 witness: the robots gate at a concrete monitor and environment. -/
theorem C6_robots_blocked_witness :
    run_check envW6 (some monW6) =
      ⟨[{ defaultResult monW6.id envW6.now with note := "Blocked by robots.txt" }],
        some monW6, false, false, false⟩ :=
  C6_robots_blocked envW6 monW6 rfl rfl rfl

/-- C7: the decision-table examples hold ((true, "high") for the price pair
and (true, "medium") for the date pair), but the general first-match-wins
reading of "difference" fails: with old = "in stock" and new =
"in stock Jan 2024" there is no stock or price difference and there is a
date difference, so the claim requires severity "medium", yet the code
returns (true, "high") because both texts merely contain a stock phrase
(the `re.Match` identity comparison). -/
theorem C7_decision_table :
    classify_material_change "Price $10" "Price $20" = (true, "high") ∧
    classify_material_change "Sale ends Jan 2024" "Sale ends Feb 2024" = (true, "medium") ∧
    classify_material_change "in stock" "in stock Jan 2024" = (true, "high") := by
  exact ⟨by decide, by decide, by decide⟩

/-- C9: the classifier output is internally consistent: material_change is
true exactly when the severity is not "none", and the severity is always
one of none/low/medium/high. -/
theorem C9_classifier_invariant (old new : String) :
    ((classify_material_change old new).1 = true ↔
      (classify_material_change old new).2 ≠ "none") ∧
    (classify_material_change old new).2 ∈ (["none", "low", "medium", "high"] : List String) := by
  have h : ∀ (st p d ct : Bool),
      (((if st || p then ((true, "high") : Bool × String)
        else if d then (true, "medium")
        else if ct then (true, "low")
        else (false, "none")).1 = true) ↔
        ((if st || p then ((true, "high") : Bool × String)
        else if d then (true, "medium")
        else if ct then (true, "low")
        else (false, "none")).2 ≠ "none")) ∧
      (if st || p then ((true, "high") : Bool × String)
        else if d then (true, "medium")
        else if ct then (true, "low")
        else (false, "none")).2 ∈ (["none", "low", "medium", "high"] : List String) := by
    intro st p d ct
    cases st <;> cases p <;> cases d <;> cases ct <;> decide
  exact h _ _ _ _

/-! ### C1: visual change decision -/

/-- A 64-pixel grid, half bright half dark. -/
def bufA : List Nat := List.replicate 32 200 ++ List.replicate 32 0

/-- The same grid with one bright pixel turned dark: its aHash bit signature
differs from that of `bufA` in exactly one bit. -/
def bufB : List Nat := 0 :: (List.replicate 31 200 ++ List.replicate 32 0)

def monC1 : Monitor :=
  { monBase with
    last_text := "same text",
    last_content_hash := text_hash "same text",
    last_image_hash := image_hash bufA }

def envC1 : Env :=
  { envBase with fetch := Except.ok ⟨"same text", some bufB, false, []⟩ }

set_option maxRecDepth 40000 in
/-- C1: the spec requires `changed_visual` to be decided by the perceptual
bit signature and a Hamming threshold (`ahash`/`hamming64`, threshold 8,
all present in monitor_core.py).  The check flow instead compares the
cryptographic digest of the downsampled buffer for exact inequality
(`image_hash` in diffing.py, used at main.py 110-113): at a one-pixel
difference the Hamming distance is 1 < 8, so the claim requires
changed_visual = false, yet the persisted row has changed_visual = true.
(The only-if-a-screenshot-was-captured part does match the code.) -/
theorem C1_changed_visual_exact_hash_not_hamming :
    hamming64 (ahash bufA) (ahash bufB) = 1 ∧
    VISUAL_HAMMING_THRESHOLD = 8 ∧
    image_hash bufA ≠ image_hash bufB ∧
    ((run_check envC1 (some monC1)).results.map (fun r => r.changed_visual)) = [true] ∧
    ((run_check envC1 (some monC1)).results.map (fun r => r.changed_text)) = [false] := by
  exact ⟨by decide, rfl, by decide, by decide, by decide⟩

/-! ### C3: one row per invocation -/

def monC3 : Monitor := monBase

def envC3 : Env := { envBase with email_ok := Except.error "SMTP connection refused" }

/-- C3: the claim says every invocation persists exactly one CheckResult and
that notifier delivery failures are never surfaced as check failures.
`send_email` does not catch SMTP exceptions, so a delivery failure reaches
the outer `except` of `run_check` after the first row and the baseline were
already committed, and a second, error-noted row is persisted: at this
environment the invocation persists two rows. -/
theorem C3_email_failure_persists_two_rows :
    ((run_check envC3 (some monC3)).results.map (fun r => r.note)) =
      ["", "Error: SMTP connection refused"] ∧
    (run_check envC3 (some monC3)).results.length = 2 ∧
    (run_check envC3 (some monC3)).emailed = true := by
  exact ⟨by decide, by decide, by decide⟩

/-! ### C5: the recorded text-change ratio -/

def monC5 : Monitor :=
  { monBase with last_text := "abcd", last_content_hash := text_hash "abcd" }

def envC5 : Env := { envBase with fetch := Except.ok ⟨"abce", none, false, []⟩ }

/-- C5: the claim says the recorded ratio equals one minus the normalized
sequence-similarity ratio (0 iff identical).  `run_check` records
`SequenceMatcher.ratio()` itself — the similarity — whenever the text hash
changed: at baseline "abcd" against fetched "abce" the similarity is 3/4,
the row records 3/4, while the claim requires 1 - 3/4 = 1/4. -/
theorem C5_recorded_ratio_is_similarity :
    ((run_check envC5 (some monC5)).results.map (fun r => r.text_change_ratio)) =
      [ratioQ "abcd".data "abce".data] ∧
    ratioQ "abcd".data "abce".data = 3 / 4 ∧
    1 - ratioQ "abcd".data "abce".data = 1 / 4 ∧
    ((3 : ℚ) / 4 ≠ 1 / 4) := by
  have hm : matchTotal "abcd".data "abce".data = 3 := by decide
  have h1 : "abcd".data.length = 4 := by decide
  have h2 : "abce".data.length = 4 := by decide
  have hr : ratioQ "abcd".data "abce".data = 3 / 4 := by
    rw [ratioQ, hm, h1, h2]
    norm_num
  refine ⟨rfl, hr, ?_, by norm_num⟩
  rw [hr]
  norm_num

/-! ### C8: the relevance filter -/

/-- Prefix decomposition transfer: a forbidden ordering inside the truncated
sort would be a forbidden ordering inside the full sort. -/
theorem price_never_after_take (l : List Block) (k : Nat) (pre mid post : List Block)
    (a b : Block) (hw : a.weight = b.weight) (ha : a.type = "price")
    (hb : b.type ≠ "price")
    (hnt : ¬(a.text.length < 12 ∧ b.type = "headline" ∧ 12 ≤ b.text.length)) :
    (sortDesc l).take k ≠ pre ++ b :: (mid ++ a :: post) := by
  intro h
  have hd : sortDesc l = pre ++ b :: (mid ++ a :: (post ++ (sortDesc l).drop k)) := by
    calc sortDesc l = (pre ++ b :: (mid ++ a :: post)) ++ (sortDesc l).drop k := by
          rw [← h]; exact (List.take_append_drop k (sortDesc l)).symm
      _ = pre ++ b :: (mid ++ a :: (post ++ (sortDesc l).drop k)) := by
          simp [List.append_assoc]
  exact price_never_after l pre mid (post ++ (sortDesc l).drop k) a b hw ha hb hnt hd

/-- C8 counterexample: two blocks of equal base weight 9, one of type price
with short text (penalty -2) and one headline with long text, tie at score
12, and the stable sort keeps the headline first — the price block does not
sort strictly before the other. -/
theorem C8_price_tie_counterexample :
    hlLong.weight = prShort.weight ∧ prShort.type = "price" ∧ hlLong.type ≠ "price" ∧
    score prShort = score hlLong ∧
    (filter_relevant ⟨[hlLong, prShort], [], []⟩ 60).added = [hlLong, prShort] := by
  exact ⟨rfl, rfl, by decide, by decide, by decide⟩

/-- C8 amended: scores are base weight plus type bonus minus short-text
penalty; each category is sorted descending by score, the sort is a stable
permutation (equal-score elements keep input order), at most keep_max items
survive per category; at equal base weight a price block never scores below
a non-price block, and it sorts strictly before it (never after it in any
category) except in the tie case (short price text against an unpenalized
headline), where stability preserves input order. -/
theorem C8_filter_relevant_amended :
    (∀ changes k, (filter_relevant changes k).added.length ≤ k ∧
      (filter_relevant changes k).removed.length ≤ k ∧
      (filter_relevant changes k).modified.length ≤ k) ∧
    (∀ changes k, DescBy (filter_relevant changes k).added ∧
      DescBy (filter_relevant changes k).removed ∧
      DescBy (filter_relevant changes k).modified) ∧
    (∀ l, List.Perm (sortDesc l) l) ∧
    (∀ l s, (sortDesc l).filter (fun x => decide (score x = s)) =
      l.filter (fun x => decide (score x = s))) ∧
    (∀ a b : Block, a.weight = b.weight → a.type = "price" → b.type ≠ "price" →
      score b ≤ score a ∧ (score a = score b →
        a.text.length < 12 ∧ b.type = "headline" ∧ 12 ≤ b.text.length)) ∧
    (∀ (changes : DiffResult) (k : Nat) (pre mid post : List Block) (a b : Block),
      a.weight = b.weight → a.type = "price" → b.type ≠ "price" →
      ¬(a.text.length < 12 ∧ b.type = "headline" ∧ 12 ≤ b.text.length) →
      (filter_relevant changes k).added ≠ pre ++ b :: (mid ++ a :: post) ∧
      (filter_relevant changes k).removed ≠ pre ++ b :: (mid ++ a :: post) ∧
      (filter_relevant changes k).modified ≠ pre ++ b :: (mid ++ a :: post)) := by
  refine ⟨?_, ?_, sortDesc_perm, sortDesc_stable, price_score_fact, ?_⟩
  · intro changes k
    refine ⟨?_, ?_, ?_⟩ <;>
      · rw [filter_relevant]
        rw [List.length_take]
        exact min_le_left _ _
  · intro changes k
    refine ⟨?_, ?_, ?_⟩ <;>
      exact List.Pairwise.sublist (List.take_sublist _ _) (sortDesc_sorted _)
  · intro changes k pre mid post a b hw ha hb hnt
    exact ⟨price_never_after_take _ k pre mid post a b hw ha hb hnt,
      price_never_after_take _ k pre mid post a b hw ha hb hnt,
      price_never_after_take _ k pre mid post a b hw ha hb hnt⟩

/-- C8 witness: the strict-ordering part applied at a concrete price block
against an equal-weight paragraph block (no tie possible). -/
theorem C8_filter_relevant_amended_witness :
    (filter_relevant ⟨[paraLong, prShort], [], []⟩ 60).added ≠
      [] ++ paraLong :: ([] ++ prShort :: []) :=
  (C8_filter_relevant_amended.2.2.2.2.2 ⟨[paraLong, prShort], [], []⟩ 60 [] [] []
    prShort paraLong rfl rfl (by decide) (by decide)).1

/-! ### C10: the first check of a fresh monitor -/

/-- C10: a newly created monitor has `last_content_hash = ""` (the
non-nullable column default, not NULL), and a SHA-256 hexdigest is never
empty, so `changed_text` is true on the first successful check; the run
therefore qualifies for classification (the LLM verdict is recorded) and
takes the notification branch (`send_email` is invoked). -/
theorem C10_first_check_reports_changed_text (env : Env) (mon : Monitor) (f : FetchOk)
    (hact : mon.is_active = true) (hrob : env.robots_allowed = true)
    (hfresh : mon.last_content_hash = "") (hfetch : env.fetch = Except.ok f) :
    ((run_check env (some mon)).results.head?.map (fun r => r.changed_text)) = some true ∧
    ((run_check env (some mon)).results.head?.map (fun r => r.material_change)) =
      some env.llm.material_change ∧
    (run_check env (some mon)).emailed = true := by
  have hrc : run_check env (some mon) = normal_path env mon f := by
    simp [run_check, hact, hrob, hfetch]
  rw [hrc]
  have htc : ∀ t : String, (text_hash t != "") = true :=
    fun t => bne_iff_ne.mpr (text_hash_ne_empty t)
  unfold normal_path
  simp only [hfresh, htc, Bool.true_or, Bool.or_true, if_true]
  cases henv : env.email_ok <;> simp [henv]

def monW10 : Monitor :=
  { id := 2, url := "http://example.com/", selector := "", render_js := false,
    frequency_minutes := 60, last_content_hash := "", last_image_hash := "",
    last_checked_at := none, is_active := true, last_text := "",
    ignore_robots := false, last_blocks := [] }

def fW10 : FetchOk := ⟨"hello page", none, false, []⟩

def envW10 : Env :=
  { robots_allowed := true, fetch := Except.ok fW10, llm := llmNeutral,
    email_ok := Except.ok (), now := 5 }

/-- C10 witness: the first check of a concrete fresh monitor. -/
theorem C10_first_check_reports_changed_text_witness :
    ((run_check envW10 (some monW10)).results.head?.map (fun r => r.changed_text)) = some true ∧
    ((run_check envW10 (some monW10)).results.head?.map (fun r => r.material_change)) =
      some envW10.llm.material_change ∧
    (run_check envW10 (some monW10)).emailed = true :=
  C10_first_check_reports_changed_text envW10 monW10 fW10 rfl rfl rfl rfl

end PingPilot
